import Mathlib

/-
Verification of the rolling file writer in `io/rollingfilewriter.go`.

Strings are modelled as lists of characters (`Str`), the directory holding the
log files as a list of (name, size) entries (`Dir`).  Pure helpers of the Go
source (`strconv.Atoi`, `fmt.Sprintf("%d", _)`, the policy virtuals, the sorted
history construction) become Lean functions; the stateful `Write`/`Close` paths
become explicit state-passing functions.  Machine integers (`int`, `int64`) are
modelled as `Int`; the 64-bit range check inside `strconv.Atoi` (which only
fires on tails of 19 or more digits) is elided.  Fallible filesystem calls are
modelled by oracle parameters returning `Except`/`Option` results.
-/

namespace RollingWriter

open List

/-- Character-list model of a Go string. -/
abbrev Str := List Char

/-- Byte-slice payload handed to `Write`; only its length matters to the model. -/
abbrev Bytes := List UInt8

/-- The constant `rollingLogHistoryDelimiter = "."`. -/
def delim : Str := ['.']

/-- Digit-run accumulator of `strconv.Atoi`: consumes decimal digits, failing on
any non-digit character.  `acc` is the value of the digits already consumed. -/
def parseDigits : Str → Nat → Option Nat
  | [], acc => some acc
  | c :: rest, acc =>
      if c.isDigit then parseDigits rest (acc * 10 + (c.toNat - 48)) else none

/-- Digit run of `strconv.Atoi` after the optional sign: at least one digit. -/
def parseAllDigits : Str → Option Nat
  | [] => none
  | c :: rest => parseDigits (c :: rest) 0

/-- Model of Go `strconv.Atoi`: optional leading sign, then one or more decimal
digits and nothing else.  (The `int64` range check is elided, see header.) -/
def atoi (s : Str) : Option Int :=
  match s with
  | [] => none
  | c :: rest =>
      if c = '+' then (parseAllDigits rest).map (fun n => (n : Int))
      else if c = '-' then (parseAllDigits rest).map (fun n => -(n : Int))
      else (parseAllDigits (c :: rest)).map (fun n => (n : Int))

/-- Decimal digits of `n`, most significant first; `fuel`-structured so that the
kernel can evaluate it (callers pass `fuel = n + 1 > n`). -/
def natToDecAux (fuel : Nat) (n : Nat) : Str :=
  match fuel with
  | 0 => []
  | fuel' + 1 =>
      if n < 10 then [Char.ofNat (48 + n)]
      else natToDecAux fuel' (n / 10) ++ [Char.ofNat (48 + n % 10)]

/-- Decimal rendering of a natural number, as Go `fmt.Sprintf("%d", n)`. -/
def natToDec (n : Nat) : Str := natToDecAux (n + 1) n

/-- Model of Go `fmt.Sprintf("%d", v)` for a (signed) `int`. -/
def intToDec (v : Int) : Str :=
  if v < 0 then '-' :: natToDec (-v).toNat else natToDec v.toNat

/-- `RollingFileWriterSize.isFileTailValid` (rollingfilewriter.go:396-402). -/
def sizeIsFileTailValid (tail : Str) : Bool :=
  if tail.length = 0 then false else (atoi tail).isSome

/-- Sort key of `rollSizeFileTailsSlice.Less` (rollingfilewriter.go:407-411):
`strconv.Atoi` with errors collapsing to `0`. -/
def keyD (t : Str) : Int := (atoi t).getD 0

/-- Comparison realised by `sort.Sort(rollSizeFileTailsSlice(fs))`: the sorted
output satisfies `¬ Less j i` for `i < j`, i.e. it is pairwise `keyD _ ≤ keyD _`. -/
def tailLE (a b : Str) : Prop := keyD a ≤ keyD b

instance : DecidableRel tailLE := fun _ _ => Int.decLe _ _

instance : IsTotal Str tailLE := ⟨fun a b => Int.le_total (keyD a) (keyD b)⟩

instance : IsTrans Str tailLE := ⟨fun _ _ _ h₁ h₂ => le_trans h₁ h₂⟩

/-- `RollingFileWriterSize.sortFileTailsAsc` (rollingfilewriter.go:414-418):
`sort.Sort` guarantees a permutation of the input that is sorted for `Less`;
insertion sort by `tailLE` realises exactly that contract. -/
def sizeSortFileTailsAsc (fs : List Str) : List Str := List.insertionSort tailLE fs

/-- `RollingFileWriterSize.getNewHistoryFileNameTail` (rollingfilewriter.go:420-426):
`v := 0; if len(tail) != 0 { v, _ = strconv.Atoi(tail) }; return Sprintf("%d", v+1)`. -/
def sizeGetNewHistoryFileNameTail (lastRollFileTail : Str) : Str :=
  let v : Int := if lastRollFileTail.length ≠ 0 then (atoi lastRollFileTail).getD 0 else 0
  intToDec (v + 1)

/-- `RollingFileWriter.getFileTail` (rollingfilewriter.go:262-264):
`FileName[len(OriginalFileName+delimiter):]`. -/
def getFileTail (originalFileName fileName : Str) : Str :=
  fileName.drop (originalFileName ++ delim).length

/-- Model of Go `strings.HasPrefix`. -/
def hasPre (pre s : Str) : Bool := decide (pre <+: s)

-- ---------------------------------------------------------------------------
-- Policy dispatch surface (`RollerVirtual`, rollingfilewriter.go:123-132),
-- restricted to the operations the sorted-history construction dispatches on.
-- ---------------------------------------------------------------------------

structure Roller where
  isFileTailValid : Str → Bool
  sortFileTailsAsc : List Str → List Str

/-- The size policy's dispatch record (`RollingFileWriterSize`). -/
def sizeRoller : Roller :=
  { isFileTailValid := sizeIsFileTailValid, sortFileTailsAsc := sizeSortFileTailsAsc }

/-- `RollingFileWriter.getSortedLogHistory` (rollingfilewriter.go:167-191) as a
function of the bare-name listing returned by the directory scanner. -/
def getSortedLogHistory (r : Roller) (originalFileName fileName : Str)
    (files : List Str) : List Str :=
  let pref := originalFileName ++ delim
  let validFileTails :=
    ((files.filter (fun file => !(file == fileName) && hasPre pref file)).map
        (getFileTail originalFileName)).filter r.isFileTailValid
  let sortedTails := r.sortFileTailsAsc validFileTails
  sortedTails.map (fun v => originalFileName ++ delim ++ v)

-- ---------------------------------------------------------------------------
-- Directory snapshots and the effect of the filesystem calls on them.
-- ---------------------------------------------------------------------------

/-- A directory snapshot: the (bare name, size) entries it holds. -/
abbrev Dir := List (Str × Int)

def dirNames (d : Dir) : List Str := d.map Prod.fst

/-- Size of the named file, when present (`os.Lstat(..).Size()`). -/
def lookupSize (d : Dir) (n : Str) : Option Int :=
  (d.find? (fun e => e.1 == n)).map Prod.snd

/-- Effect of `os.Remove` on a directory snapshot. -/
def dirRemove (d : Dir) (n : Str) : Dir := d.filter (fun e => !(e.1 == n))

/-- Effect of `os.Rename old new` (the destination, if present, is replaced). -/
def dirRename (d : Dir) (old new : Str) : Dir :=
  let sz := (lookupSize d old).getD 0
  dirRemove (dirRemove d old) new ++ [(new, sz)]

/-- Effect of `os.Create` (creates, or truncates to size 0). -/
def dirCreate (d : Dir) (n : Str) : Dir := dirRemove d n ++ [(n, 0)]

/-- Effect of a successful append of `len` bytes to file `n`. -/
def dirAppend (d : Dir) (n : Str) (len : Nat) : Dir :=
  d.map (fun e => if e.1 = n then (e.1, e.2 + (len : Int)) else e)

-- ---------------------------------------------------------------------------
-- The size-policy writer on the success path (every filesystem call succeeds,
-- the underlying file write appends the whole payload).
-- ---------------------------------------------------------------------------

/-- State of a `RollingFileWriterSize`: the `RollingFileWriter` fields the
model tracks plus `MaxFileSize`; `fileOpen` models `CurrentFile != nil`. -/
structure SizeWriter where
  fileName : Str
  originalFileName : Str
  maxRolls : Int
  maxFileSize : Int
  currentSize : Int
  fileOpen : Bool

/-- `NewRollingFileWriterSize` state for a bare filename path
(rollingfilewriter.go:152-165, 382-390). -/
def initWriter (orig : Str) (maxFileSize maxRolls : Int) : SizeWriter :=
  { fileName := orig, originalFileName := orig, maxRolls := maxRolls,
    maxFileSize := maxFileSize, currentSize := 0, fileOpen := false }

/-- `createFileAndFolderIfNeeded` (rollingfilewriter.go:193-227) on the success
path for the size policy (`getCurrentModifiedFileName` is the identity): open
the existing file and adopt its on-disk size, or create an empty one. -/
def createFileAndFolderIfNeededD (w : SizeWriter) (d : Dir) : SizeWriter × Dir :=
  let fn := w.originalFileName
  match lookupSize d fn with
  | some sz => ({ w with fileName := fn, fileOpen := true, currentSize := sz }, d)
  | none => ({ w with fileName := fn, fileOpen := true, currentSize := 0 }, dirCreate d fn)

/-- Lines 323-334 and 339 of `Write`: build `newHistoryName` from `newTail`,
rename the current file on disk when the name changed, and append the new name
to the history list. -/
def rotationRenameStep (fileName : Str) (history : List Str) (newTail : Str) (d : Dir) :
    Dir × List Str :=
  let newHistoryName := if newTail.length ≠ 0 then fileName ++ delim ++ newTail else fileName
  let d' := if newHistoryName ≠ fileName then dirRename d fileName newHistoryName else d
  (d', history ++ [newHistoryName])

/-- `deleteOldRolls` (rollingfilewriter.go:229-249) on the success path: its
effect on the directory snapshot. -/
def deleteOldRollsD (maxRolls : Int) (history : List Str) (d : Dir) : Dir :=
  if maxRolls ≤ 0 then d
  else
    let rollsToDelete : Int := (history.length : Int) - maxRolls
    if rollsToDelete ≤ 0 then d
    else (history.take rollsToDelete.toNat).foldl dirRemove d

/-- The directory effect of lines 287-345 of `Write` (scan, name the new roll,
rename, prune), dispatching the size-policy virtuals. -/
def rollDir (originalFileName fileName : Str) (maxRolls : Int) (d₁ : Dir) : Dir :=
  let history := getSortedLogHistory sizeRoller originalFileName fileName (dirNames d₁)
  let newTail :=
    match history.getLast? with
    | some lastName => sizeGetNewHistoryFileNameTail (getFileTail originalFileName lastName)
    | none => sizeGetNewHistoryFileNameTail []
  let p₂ := rotationRenameStep fileName history newTail d₁
  if (p₂.2.length : Int) > maxRolls then deleteOldRollsD maxRolls p₂.2 p₂.1 else p₂.1

/-- Lines 276-355 of `Write` after the handle is known to be open: roll if
`CurrentFileSize >= MaxFileSize` (the size policy's `needsToRoll`), then append. -/
def writeStepOpen (w₁ : SizeWriter) (d₁ : Dir) (bytes : Bytes) : SizeWriter × Dir :=
  if w₁.maxFileSize ≤ w₁.currentSize then
    let w₂ := { w₁ with fileOpen := false }   -- CurrentFile.Close()
    let d₃ := rollDir w₂.originalFileName w₂.fileName w₂.maxRolls d₁
    let p₃ := createFileAndFolderIfNeededD w₂ d₃
    ({ p₃.1 with currentSize := p₃.1.currentSize + (bytes.length : Int) },
      dirAppend p₃.2 p₃.1.fileName bytes.length)
  else
    ({ w₁ with currentSize := w₁.currentSize + (bytes.length : Int) },
      dirAppend d₁ w₁.fileName bytes.length)

/-- `RollingFileWriter.Write` (rollingfilewriter.go:266-355) for the size
policy on the success path. -/
def writeStep (w : SizeWriter) (d : Dir) (bytes : Bytes) : SizeWriter × Dir :=
  let p₁ := if w.fileOpen then (w, d) else createFileAndFolderIfNeededD w d
  writeStepOpen p₁.1 p₁.2 bytes

/-- A sequence of successful `Write` calls. -/
def runWrites (w : SizeWriter) (d : Dir) (writes : List Bytes) : SizeWriter × Dir :=
  writes.foldl (fun p bytes => writeStep p.1 p.2 bytes) (w, d)

/-- The history files of `orig` in a directory: the names that begin with
`orig ++ "."`. -/
def rollFiles (orig : Str) (d : Dir) : List Str :=
  (dirNames d).filter (fun f => hasPre (orig ++ delim) f)

/-- Names `orig.start, orig.(start+1), …` for `cnt` consecutive integers. -/
def canonNames (orig : Str) (start cnt : Nat) : List Str :=
  (List.range' start cnt).map (fun k => orig ++ delim ++ natToDec k)

/-- The tails of `canonNames`: decimals of `cnt` consecutive integers. -/
def canonTails (start cnt : Nat) : List Str := (List.range' start cnt).map natToDec

/-- Invariant carried across successful writes of a size-policy writer with
retention bound `R`: the writer's names are fixed at `orig`, directory names
are distinct, an open handle means the live file exists, and the history is a
block of consecutive decimal tails of length at most `R` (starting at 1 while
no pruning has occurred; the block is empty only before the first rotation). -/
def WInv (orig : Str) (R : Int) (w : SizeWriter) (d : Dir) : Prop :=
  w.fileName = orig ∧ w.originalFileName = orig ∧ w.maxRolls = R ∧
  (dirNames d).Nodup ∧
  (w.fileOpen = true → orig ∈ dirNames d) ∧
  ∃ start cnt : Nat, 1 ≤ start ∧ (cnt = 0 → start = 1) ∧ (cnt : Int) ≤ R ∧
    rollFiles orig d ~ canonNames orig start cnt

-- ---------------------------------------------------------------------------
-- `deleteOldRolls` with a fallible removal oracle (claim C2).
-- ---------------------------------------------------------------------------

/-- Outcome of one `os.Remove` call. -/
inductive RmOutcome where
  | ok : RmOutcome
  | notExist : RmOutcome
  | fail : Str → RmOutcome

/-- `tryRemoveFile` (rollingfilewriter.go:253-260): an `os.IsNotExist` error is
collapsed to success.  The (elided) `filepath.Join` of each name onto the
directory path is a fixed bijection folded into the oracle `rm`. -/
def tryRemoveFile (rm : Str → RmOutcome) (p : Str) : Option Str :=
  match rm p with
  | .ok => none
  | .notExist => none
  | .fail e => some e

/-- The deletion loop of `deleteOldRolls` over its list of targets: the first
error, if any, together with the removal calls issued (in order). -/
def runRemovals (rm : Str → RmOutcome) : List Str → Option Str × List Str
  | [] => (none, [])
  | p :: rest =>
      match tryRemoveFile rm p with
      | some e => (some e, [p])
      | none =>
          let r := runRemovals rm rest
          (r.1, p :: r.2)

/-- `deleteOldRolls` (rollingfilewriter.go:229-249) with a removal oracle:
the resulting error and the removal calls issued. -/
def deleteOldRollsE (rm : Str → RmOutcome) (maxRolls : Int) (history : List Str) :
    Option Str × List Str :=
  if maxRolls ≤ 0 then (none, [])
  else
    let rollsToDelete : Int := (history.length : Int) - maxRolls
    if rollsToDelete ≤ 0 then (none, [])
    else runRemovals rm (history.take rollsToDelete.toNat)

/-- Lines 339-345 of `Write`: prune when the post-rename history exceeds
`MaxRolls`, aborting the write with the deletion error if one occurs. -/
def writePruneStep (rm : Str → RmOutcome) (maxRolls : Int) (history : List Str) :
    Except Str Unit :=
  if (history.length : Int) > maxRolls then
    match (deleteOldRollsE rm maxRolls history).1 with
    | some e => .error e
    | none => .ok ()
  else .ok ()

-- ---------------------------------------------------------------------------
-- `createFileAndFolderIfNeeded` with explicit filesystem-call results (C3).
-- ---------------------------------------------------------------------------

/-- Results of the filesystem calls `createFileAndFolderIfNeeded` can make. -/
structure EnsureEnv where
  mkdirAll : Option Str
  lstat1 : Except Str Int
  openAppend : Except Str Unit
  lstat2 : Except Str Int
  create : Except Str Unit

/-- End state of `createFileAndFolderIfNeeded`: whether `CurrentFile` holds a
handle, and the value of `CurrentFileSize`. -/
structure EnsureOut where
  fileSet : Bool
  size : Int
deriving DecidableEq

/-- `createFileAndFolderIfNeeded` (rollingfilewriter.go:193-227), faithful to
the error wiring of the source: the open-for-append error assigned on line 210
is overwritten by the second `Lstat` on line 212 before line 213 tests it. -/
def createFileAndFolderIfNeededE (dirNonempty : Bool) (env : EnsureEnv) :
    Except Str EnsureOut :=
  match (if dirNonempty then env.mkdirAll else none) with
  | some e => .error e
  | none =>
      match env.lstat1 with
      | .ok _ =>
          -- rw.CurrentFile, err = os.OpenFile(...): the handle is nil exactly on error
          let fileSet := match env.openAppend with | .ok _ => true | .error _ => false
          -- stat, err = os.Lstat(filePath): err is overwritten here
          match env.lstat2 with
          | .error e => .error e
          | .ok sz => .ok { fileSet := fileSet, size := sz }
      | .error _ =>
          match env.create with
          | .error e => .error e
          | .ok _ => .ok { fileSet := true, size := 0 }

-- ---------------------------------------------------------------------------
-- The append at the end of `Write`, and `Close` (C4, C8).
-- ---------------------------------------------------------------------------

/-- Lines 352-355 of `Write`: `CurrentFileSize += int64(len(bytes)); return
CurrentFile.Write(bytes)`, with the underlying `os.File.Write` an oracle
returning (bytes written, error).  Result: (new `CurrentFileSize`, count, error). -/
def writeAppend (fileWrite : Bytes → Nat × Option Str) (currentSize : Int) (bytes : Bytes) :
    Int × (Nat × Option Str) :=
  let newSize := currentSize + (bytes.length : Int)
  (newSize, fileWrite bytes)

/-- `RollingFileWriter.Close` (rollingfilewriter.go:357-366) with the result of
the underlying `os.File.Close` as an oracle.  Returns (error, whether a handle
remains open, whether the underlying close was called). -/
def closeWriter (closeResult : Option Str) (fileOpen : Bool) : Option Str × Bool × Bool :=
  if fileOpen then
    match closeResult with
    | some e => (some e, true, true)
    | none => (none, false, true)
  else (none, false, false)

-- ---------------------------------------------------------------------------
-- The time policy (C5, C6).
-- ---------------------------------------------------------------------------

/-- `RollingFileWriterTime.getNewHistoryFileNameTail` (rollingfilewriter.go:513-515). -/
def timeGetNewHistoryFileNameTail (_lastRollFileTail : Str) : Str := []

/-- `RollingIntervalAny` (rollingfilewriter.go:54); a `RollingIntervalType` is
a `uint8`, modelled as a natural number below 256. -/
def RollingIntervalAny : Nat := 0

/-- `RollingIntervalDaily` (rollingfilewriter.go:55). -/
def RollingIntervalDaily : Nat := 1

/-- The Go duration `24 * time.Hour` in nanoseconds. -/
def hours24 : Int := 24 * 3600 * 1000000000

/-- `RollingFileWriterTime.needsToRoll` (rollingfilewriter.go:465-484), with
`time.Now().Format(TimePattern)` abstracted as `fmtNow`, instants as integer
nanoseconds (`time.Now()` in the subtraction is `nowNs`), and
`time.ParseInLocation(TimePattern, _, time.Local)` abstracted as `parseTail`. -/
def timeNeedsToRoll (fmtNow : Str) (parseTail : Str → Except Str Int) (nowNs : Int)
    (originalFileName fileName : Str) (interval : Nat) : Except Str Bool :=
  if originalFileName ++ delim ++ fmtNow = fileName then .ok false
  else if interval = RollingIntervalAny then .ok true
  else
    match parseTail (getFileTail originalFileName fileName) with
    | .error e => .error e
    | .ok tprev =>
        let diff := nowNs - tprev
        if interval = RollingIntervalDaily then .ok (decide (hours24 ≤ diff))
        else .error ("unknown Interval type".data)

-- ---------------------------------------------------------------------------
-- The directory scanner (C9).
-- ---------------------------------------------------------------------------

/-- One directory entry as seen by `Readdir`: name and `os.FileMode` bits. -/
structure FileInfo where
  name : Str
  mode : Nat

/-- `os.ModeDir`: bit 31 of an `os.FileMode` (a `uint32`). -/
def modeDir : Nat := 2 ^ 31

/-- `os.ModeSymlink`: bit 27. -/
def modeSymlink : Nat := 2 ^ 27

/-- `os.ModeDevice`: bit 26. -/
def modeDevice : Nat := 2 ^ 26

/-- `os.ModeNamedPipe`: bit 25. -/
def modeNamedPipe : Nat := 2 ^ 25

/-- `os.ModeSocket`: bit 24. -/
def modeSocket : Nat := 2 ^ 24

/-- `os.ModeCharDevice`: bit 21. -/
def modeCharDevice : Nat := 2 ^ 21

/-- `os.ModeIrregular`: bit 19. -/
def modeIrregular : Nat := 2 ^ 19

/-- `os.ModeType = ModeDir | ModeSymlink | ModeNamedPipe | ModeSocket |
ModeDevice | ModeCharDevice | ModeIrregular`. -/
def modeType : Nat :=
  modeDir ||| modeSymlink ||| modeNamedPipe ||| modeSocket ||| modeDevice |||
    modeCharDevice ||| modeIrregular

/-- `isRegular` (rollingfilewriter.go:613-615): `m & os.ModeType == 0`. -/
def isRegular (m : Nat) : Bool := m &&& modeType == 0

/-- `filepath.Join(absDirPath, fi.Name())`, path cleaning elided. -/
def joinPath (dir name : Str) : Str := dir ++ ['/'] ++ name

/-- `getDirFilePaths` (rollingfilewriter.go:533-590) as a function of the full
entry listing: the chunked `Readdir` loop reads the entire directory, emitting
each regular entry that passes the filter as a bare name or a joined path. -/
def getDirFilePaths (entries : List FileInfo) (fpFilter : Option (Str → Bool))
    (pathIsName : Bool) (absDirPath : Str) : List Str :=
  (entries.filter (fun fi => isRegular fi.mode)).filterMap (fun fi =>
    let fp := if pathIsName then fi.name else joinPath absDirPath fi.name
    match fpFilter with
    | some flt => if flt fp then some fp else none
    | none => some fp)

-- ---------------------------------------------------------------------------
-- Decimal round-trip facts used by the size-policy invariant.
-- ---------------------------------------------------------------------------

theorem parseDigits_append_some {l₁ : Str} :
    ∀ {acc a : Nat}, parseDigits l₁ acc = some a →
      ∀ l₂, parseDigits (l₁ ++ l₂) acc = parseDigits l₂ a := by
  induction l₁ with
  | nil =>
      intro acc a h l₂
      simp [parseDigits] at h
      subst h
      simp
  | cons c rest ih =>
      intro acc a h l₂
      by_cases hc : c.isDigit
      · simp only [parseDigits, if_pos hc] at h
        simpa [parseDigits, hc] using ih h l₂
      · simp [parseDigits, hc] at h

theorem digit_char_spec (k : Nat) (h : k < 10) :
    (Char.ofNat (48 + k)).isDigit = true ∧ (Char.ofNat (48 + k)).toNat = 48 + k := by
  interval_cases k <;> exact ⟨by decide, by decide⟩

theorem parseDigits_natToDecAux (fuel : Nat) :
    ∀ n acc, n < fuel →
      parseDigits (natToDecAux fuel n) acc =
        some (acc * 10 ^ (natToDecAux fuel n).length + n) := by
  induction fuel with
  | zero => intro n acc h; omega
  | succ fuel' ih =>
      intro n acc _
      by_cases h10 : n < 10
      · have hd := digit_char_spec n h10
        simp [natToDecAux, h10, parseDigits, hd.1, hd.2]
      · have hlt : n / 10 < fuel' := by
          have h1 : n / 10 < n := Nat.div_lt_self (by omega) (by omega)
          omega
        have hd := digit_char_spec (n % 10) (Nat.mod_lt n (by omega))
        have ihx := ih (n / 10) acc hlt
        have hc1 : (Char.ofNat (48 + n % 10)).isDigit = true := hd.1
        have hc2 : (Char.ofNat (48 + n % 10)).toNat = 48 + n % 10 := hd.2
        have hone : ∀ a, parseDigits [Char.ofNat (48 + n % 10)] a = some (a * 10 + n % 10) := by
          intro a
          simp [parseDigits, hc1, hc2]
        simp only [natToDecAux, if_neg h10]
        rw [parseDigits_append_some ihx, hone]
        simp only [List.length_append, List.length_cons, List.length_nil]
        congr 1
        rw [pow_succ, ← mul_assoc]
        omega

theorem natToDecAux_ne_nil (fuel n : Nat) (h : n < fuel) : natToDecAux fuel n ≠ [] := by
  cases fuel with
  | zero => omega
  | succ fuel' =>
      by_cases h10 : n < 10
      · simp [natToDecAux, h10]
      · simp [natToDecAux, h10]

theorem natToDecAux_digits (fuel : Nat) :
    ∀ n, n < fuel → ∀ c ∈ natToDecAux fuel n, c.isDigit = true := by
  induction fuel with
  | zero => intro n h; omega
  | succ fuel' ih =>
      intro n _ c hc
      by_cases h10 : n < 10
      · simp [natToDecAux, h10] at hc
        subst hc
        exact (digit_char_spec n h10).1
      · simp only [natToDecAux, if_neg h10, List.mem_append, List.mem_singleton] at hc
        rcases hc with hc | hc
        · have hlt : n / 10 < fuel' := by
            have h1 : n / 10 < n := Nat.div_lt_self (by omega) (by omega)
            omega
          exact ih (n / 10) hlt c hc
        · subst hc
          exact (digit_char_spec (n % 10) (Nat.mod_lt n (by omega))).1

theorem natToDec_ne_nil (n : Nat) : natToDec n ≠ [] :=
  natToDecAux_ne_nil (n + 1) n (Nat.lt_succ_self n)

theorem natToDec_digits (n : Nat) : ∀ c ∈ natToDec n, c.isDigit = true :=
  natToDecAux_digits (n + 1) n (Nat.lt_succ_self n)

theorem parseAllDigits_natToDec (n : Nat) : parseAllDigits (natToDec n) = some n := by
  have h := parseDigits_natToDecAux (n + 1) n 0 (Nat.lt_succ_self n)
  cases hh : natToDec n with
  | nil => exact absurd hh (natToDec_ne_nil n)
  | cons c rest =>
      have : parseDigits (c :: rest) 0 = some n := by
        rw [← hh]
        unfold natToDec at h ⊢
        rw [h]; simp
      simpa [parseAllDigits] using this

theorem atoi_natToDec (n : Nat) : atoi (natToDec n) = some (n : Int) := by
  cases hh : natToDec n with
  | nil => exact absurd hh (natToDec_ne_nil n)
  | cons c rest =>
      have hdig : c.isDigit = true := by
        have := natToDec_digits n c (by rw [hh]; exact List.mem_cons_self _ _)
        exact this
      have hplus : ¬ (c = '+') := by
        intro h; subst h; exact absurd hdig (by decide)
      have hminus : ¬ (c = '-') := by
        intro h; subst h; exact absurd hdig (by decide)
      have hp : parseAllDigits (c :: rest) = some n := by
        rw [← hh]; exact parseAllDigits_natToDec n
      simp [atoi, hplus, hminus, hp]

theorem natToDec_injective : Function.Injective natToDec := by
  intro a b hab
  have ha := atoi_natToDec a
  have hb := atoi_natToDec b
  rw [hab, hb] at ha
  have : (a : Int) = b := by
    have := Option.some.inj ha
    omega
  omega

theorem keyD_natToDec (n : Nat) : keyD (natToDec n) = (n : Int) := by
  simp [keyD, atoi_natToDec]

theorem intToDec_ofNat_succ (n : Nat) : intToDec ((n : Int) + 1) = natToDec (n + 1) := by
  have h : ¬ ((n : Int) + 1 < 0) := by omega
  have h2 : ((n : Int) + 1).toNat = n + 1 := by omega
  simp [intToDec, h, h2]

-- ---------------------------------------------------------------------------
-- Helper lemmas.
-- ---------------------------------------------------------------------------

theorem getFileTail_reattach (orig t : Str) : getFileTail orig (orig ++ delim ++ t) = t := by
  show ((orig ++ delim) ++ t).drop (orig ++ delim).length = t
  exact List.drop_left _ _

theorem reattach_getFileTail {orig f : Str} (h : (orig ++ delim) <+: f) :
    orig ++ delim ++ getFileTail orig f = f := by
  obtain ⟨u, rfl⟩ := h
  have hu : getFileTail orig (orig ++ delim ++ u) = u := by
    show ((orig ++ delim) ++ u).drop (orig ++ delim).length = u
    exact List.drop_left _ _
  rw [hu]

theorem ne_of_pre {orig f : Str} (h : (orig ++ delim) <+: f) : f ≠ orig := by
  intro hf
  have hlen := h.length_le
  have hd : (orig ++ delim).length = orig.length + 1 := by simp [delim]
  rw [hf, hd] at hlen
  omega

theorem hasPre_self_false (orig : Str) : hasPre (orig ++ delim) orig = false := by
  simp only [hasPre, decide_eq_false_iff_not]
  intro h
  exact (ne_of_pre h) rfl

theorem hasPre_reattach (orig t : Str) : hasPre (orig ++ delim) (orig ++ delim ++ t) = true := by
  simp only [hasPre, decide_eq_true_eq]
  exact ⟨t, rfl⟩

theorem dirNames_dirRemove (d : Dir) (n : Str) :
    dirNames (dirRemove d n) = (dirNames d).filter (fun f => !(f == n)) := by
  induction d with
  | nil => rfl
  | cons e rest ih =>
      simp only [dirRemove, dirNames, List.filter_cons, List.map_cons] at ih ⊢
      cases hb : (e.1 == n) with
      | true => simpa [hb] using ih
      | false => simpa [hb] using congrArg (e.1 :: ·) ih

theorem dirNames_append (d₁ d₂ : Dir) :
    dirNames (d₁ ++ d₂) = dirNames d₁ ++ dirNames d₂ := List.map_append _ _ _

theorem dirNames_dirCreate (d : Dir) (n : Str) :
    dirNames (dirCreate d n) = (dirNames d).filter (fun f => !(f == n)) ++ [n] := by
  show dirNames (dirRemove d n ++ [(n, 0)]) = _
  rw [dirNames_append, dirNames_dirRemove]
  rfl

theorem dirNames_dirRename (d : Dir) (old nw : Str) :
    dirNames (dirRename d old nw) =
      ((dirNames d).filter (fun f => !(f == old))).filter (fun f => !(f == nw)) ++ [nw] := by
  show dirNames (dirRemove (dirRemove d old) nw ++ [(nw, _)]) = _
  rw [dirNames_append, dirNames_dirRemove, dirNames_dirRemove]
  rfl

theorem dirNames_dirAppend (d : Dir) (n : Str) (len : Nat) :
    dirNames (dirAppend d n len) = dirNames d := by
  induction d with
  | nil => rfl
  | cons e rest ih =>
      simp only [dirAppend, dirNames, List.map_cons] at ih ⊢
      by_cases hb : e.1 = n
      · simpa [hb] using ih
      · simpa [hb] using ih

theorem dirNames_foldl_dirRemove :
    ∀ (ns : List Str) (d : Dir),
      dirNames (ns.foldl dirRemove d) = (dirNames d).filter (fun f => decide (f ∉ ns)) := by
  intro ns
  induction ns with
  | nil =>
      intro d
      simp
  | cons n ns ih =>
      intro d
      rw [List.foldl_cons, ih, dirNames_dirRemove, List.filter_filter]
      apply List.filter_congr
      intro f _
      by_cases hf : f = n
      · subst hf
        simp
      · by_cases hf2 : f ∈ ns <;> simp [hf, hf2]

theorem lookupSize_mem {d : Dir} {n : Str} {sz : Int} (h : lookupSize d n = some sz) :
    n ∈ dirNames d := by
  simp only [lookupSize, Option.map_eq_some'] at h
  obtain ⟨e, he, _⟩ := h
  have hmem := List.mem_of_find?_eq_some he
  have hpred := List.find?_some he
  simp only [beq_iff_eq] at hpred
  rw [← hpred]
  exact List.mem_map_of_mem Prod.fst hmem

theorem notMem_filter_eq_self {l : List Str} {n : Str} (h : n ∉ l) :
    l.filter (fun f => !(f == n)) = l := by
  apply List.filter_eq_self.mpr
  intro a ha
  simp only [Bool.not_eq_true', beq_eq_false_iff_ne, ne_eq]
  intro hc
  subst hc
  exact h ha

theorem filter_hasPre_of_excluded {orig n : Str} (hn : hasPre (orig ++ delim) n = false)
    (l : List Str) :
    (l.filter (fun f => !(f == n))).filter (fun f => hasPre (orig ++ delim) f) =
      l.filter (fun f => hasPre (orig ++ delim) f) := by
  rw [List.filter_filter]
  apply List.filter_congr
  intro f _
  by_cases hf : f = n
  · subst hf
    simp [hn]
  · simp [hf]

theorem rollFiles_dirCreate (orig : Str) (d : Dir) :
    rollFiles orig (dirCreate d orig) = rollFiles orig d := by
  show (dirNames (dirCreate d orig)).filter _ = (dirNames d).filter _
  rw [dirNames_dirCreate, List.filter_append, filter_hasPre_of_excluded (hasPre_self_false orig)]
  simp [hasPre_self_false orig]

theorem rollFiles_dirRename (orig t : Str) (d : Dir)
    (hnew : (orig ++ delim ++ t) ∉ dirNames d) :
    rollFiles orig (dirRename d orig (orig ++ delim ++ t)) =
      rollFiles orig d ++ [orig ++ delim ++ t] := by
  show (dirNames (dirRename d orig (orig ++ delim ++ t))).filter _ = _
  rw [dirNames_dirRename, List.filter_append]
  have h1 : ((dirNames d).filter (fun f => !(f == orig))).filter
      (fun f => !(f == orig ++ delim ++ t)) = (dirNames d).filter (fun f => !(f == orig)) := by
    apply notMem_filter_eq_self
    intro hc
    exact hnew (List.mem_of_mem_filter hc)
  rw [h1, filter_hasPre_of_excluded (hasPre_self_false orig)]
  congr 1
  rw [List.filter_cons, hasPre_reattach]
  simp

theorem rollFiles_dirAppend (orig : Str) (d : Dir) (n : Str) (len : Nat) :
    rollFiles orig (dirAppend d n len) = rollFiles orig d := by
  show (dirNames (dirAppend d n len)).filter (fun f => hasPre (orig ++ delim) f) =
    (dirNames d).filter (fun f => hasPre (orig ++ delim) f)
  rw [dirNames_dirAppend]

theorem rollFiles_foldl_dirRemove (orig : Str) (ns : List Str) (d : Dir) :
    rollFiles orig (ns.foldl dirRemove d) =
      (rollFiles orig d).filter (fun f => decide (f ∉ ns)) := by
  show (dirNames (ns.foldl dirRemove d)).filter (fun f => hasPre (orig ++ delim) f) =
    ((dirNames d).filter (fun f => hasPre (orig ++ delim) f)).filter (fun f => decide (f ∉ ns))
  rw [dirNames_foldl_dirRemove, List.filter_filter, List.filter_filter]
  apply List.filter_congr
  intro f _
  exact Bool.and_comm _ _

theorem canonName_inj {orig : Str} {j k : Nat}
    (h : orig ++ delim ++ natToDec j = orig ++ delim ++ natToDec k) : j = k := by
  have h2 : natToDec j = natToDec k := by
    have h3 := congrArg (fun l => List.drop (orig ++ delim).length l) h
    simpa [List.drop_left] using h3
  exact natToDec_injective h2

theorem mem_canonNames {orig f : Str} {start cnt : Nat} :
    f ∈ canonNames orig start cnt ↔
      ∃ k, start ≤ k ∧ k < start + cnt ∧ f = orig ++ delim ++ natToDec k := by
  simp only [canonNames, List.mem_map, List.mem_range'_1]
  constructor
  · rintro ⟨k, ⟨h1, h2⟩, rfl⟩
    exact ⟨k, h1, h2, rfl⟩
  · rintro ⟨k, h1, h2, rfl⟩
    exact ⟨k, ⟨h1, h2⟩, rfl⟩

theorem canonNames_length (orig : Str) (start cnt : Nat) :
    (canonNames orig start cnt).length = cnt := by
  simp [canonNames]

theorem canonNames_zero (orig : Str) (start : Nat) : canonNames orig start 0 = [] := by
  simp [canonNames]

theorem canonNames_one (orig : Str) (s : Nat) :
    canonNames orig s 1 = [orig ++ delim ++ natToDec s] := by
  simp [canonNames]

theorem canonNames_append (orig : Str) (start m n : Nat) :
    canonNames orig start (m + n) =
      canonNames orig start m ++ canonNames orig (start + m) n := by
  simp only [canonNames]
  rw [← List.map_append]
  congr 1
  have h := List.range'_append start m n 1
  rw [one_mul, Nat.add_comm n m] at h
  exact h.symm

theorem canonNames_take (orig : Str) (s a b : Nat) :
    (canonNames orig s (a + b)).take a = canonNames orig s a := by
  rw [canonNames_append]
  exact List.take_left' (canonNames_length orig s a)

theorem canonNames_filter_out (orig : Str) (s a b : Nat) :
    (canonNames orig s (a + b)).filter (fun f => decide (f ∉ canonNames orig s a)) =
      canonNames orig (s + a) b := by
  rw [canonNames_append, List.filter_append]
  have hleft : (canonNames orig s a).filter
      (fun f => decide (f ∉ canonNames orig s a)) = [] := by
    apply List.filter_eq_nil_iff.mpr
    intro f hf
    simp [hf]
  have hright : (canonNames orig (s + a) b).filter
      (fun f => decide (f ∉ canonNames orig s a)) = canonNames orig (s + a) b := by
    apply List.filter_eq_self.mpr
    intro f hf
    simp only [decide_eq_true_eq]
    intro hmem
    rw [mem_canonNames] at hf hmem
    obtain ⟨k, hk1, hk2, hk3⟩ := hf
    obtain ⟨j, hj1, hj2, hj3⟩ := hmem
    have hkj : k = j := canonName_inj (hk3.symm.trans hj3)
    omega
  rw [hleft, hright, List.nil_append]

theorem canonNames_getLast (orig : Str) (s k : Nat) :
    (canonNames orig s (k + 1)).getLast? = some (orig ++ delim ++ natToDec (s + k)) := by
  rw [canonNames_append orig s k 1, canonNames_one]
  exact List.getLast?_concat _

theorem canonTails_map (orig : Str) (start cnt : Nat) :
    (canonNames orig start cnt).map (getFileTail orig) = canonTails start cnt := by
  simp only [canonNames, canonTails, List.map_map]
  have hcomp : (getFileTail orig ∘ fun k => orig ++ delim ++ natToDec k) = natToDec := by
    funext k
    show getFileTail orig (orig ++ delim ++ natToDec k) = natToDec k
    exact getFileTail_reattach orig (natToDec k)
  rw [hcomp]

theorem canonNames_eq_tails (orig : Str) (start cnt : Nat) :
    canonNames orig start cnt = (canonTails start cnt).map (fun v => orig ++ delim ++ v) := by
  simp [canonNames, canonTails, List.map_map, Function.comp]

theorem canonTails_pairwise (start cnt : Nat) : (canonTails start cnt).Pairwise tailLE := by
  simp only [canonTails]
  rw [List.pairwise_map]
  have hr : (List.range' start cnt).Pairwise (· < ·) := List.pairwise_lt_range' start cnt
  exact hr.imp (fun {a b} h => by
    simp only [tailLE, keyD_natToDec]
    exact_mod_cast Nat.le_of_lt h)

theorem canonTails_keys_nodup (start cnt : Nat) : ((canonTails start cnt).map keyD).Nodup := by
  simp only [canonTails, List.map_map]
  have hcomp : (keyD ∘ natToDec) = (fun k : Nat => (k : Int)) := by
    funext k
    simp [Function.comp, keyD_natToDec]
  rw [hcomp]
  exact (List.nodup_range' start cnt).map (fun a b h => by exact_mod_cast h)

theorem eq_of_perm_of_map_eq {α β : Type} (f : α → β) :
    ∀ (c l : List α), l ~ c → l.map f = c.map f → (c.map f).Nodup → l = c := by
  intro c
  induction c with
  | nil =>
      intro l hperm _ _
      exact hperm.eq_nil
  | cons x c' ih =>
      intro l hperm hmap hnd
      cases l with
      | nil => exact absurd hperm.symm.eq_nil (by simp)
      | cons y l' =>
          simp only [List.map_cons, List.cons.injEq] at hmap
          obtain ⟨hfy, hmapt⟩ := hmap
          simp only [List.map_cons, List.nodup_cons] at hnd
          obtain ⟨hnotin, hnd'⟩ := hnd
          have hyx : y = x := by
            have hy : y ∈ x :: c' := hperm.subset (List.mem_cons_self _ _)
            rcases List.mem_cons.mp hy with h | h
            · exact h
            · have hin : f x ∈ c'.map f := hfy ▸ List.mem_map_of_mem f h
              exact absurd hin hnotin
          subst hyx
          have hperm' := hperm.cons_inv
          exact congrArg (fun t => y :: t) (ih l' hperm' hmapt hnd')

theorem sort_canonical {l c : List Str} (hperm : l ~ c)
    (hsorted : c.Pairwise tailLE) (hnd : (c.map keyD).Nodup) :
    sizeSortFileTailsAsc l = c := by
  have h1 : sizeSortFileTailsAsc l ~ c := (List.perm_insertionSort tailLE l).trans hperm
  have h2 : (sizeSortFileTailsAsc l).Pairwise tailLE := List.sorted_insertionSort tailLE l
  have hm1 : ((sizeSortFileTailsAsc l).map keyD).Sorted (· ≤ ·) := by
    rw [List.Sorted, List.pairwise_map]
    exact h2
  have hm2 : (c.map keyD).Sorted (· ≤ ·) := by
    rw [List.Sorted, List.pairwise_map]
    exact hsorted
  have hmeq : (sizeSortFileTailsAsc l).map keyD = c.map keyD :=
    List.eq_of_perm_of_sorted (h1.map keyD) hm1 hm2
  exact eq_of_perm_of_map_eq keyD c _ h1 hmeq hnd

theorem getSortedLogHistory_canon {orig : Str} {d : Dir} {start cnt : Nat}
    (hroll : rollFiles orig d ~ canonNames orig start cnt) :
    getSortedLogHistory sizeRoller orig orig (dirNames d) = canonNames orig start cnt := by
  have hkept : (dirNames d).filter
      (fun file => !(file == orig) && hasPre (orig ++ delim) file) = rollFiles orig d := by
    apply List.filter_congr
    intro f _
    cases hp : hasPre (orig ++ delim) f with
    | false => simp [hp]
    | true =>
        have hne : f ≠ orig := ne_of_pre (by simpa [hasPre] using hp)
        simp [hp, hne]
  have htails : (rollFiles orig d).map (getFileTail orig) ~ canonTails start cnt := by
    have h1 := hroll.map (getFileTail orig)
    rw [canonTails_map] at h1
    exact h1
  have hvalid : ∀ t ∈ canonTails start cnt, sizeIsFileTailValid t = true := by
    intro t ht
    simp only [canonTails, List.mem_map] at ht
    obtain ⟨k, _, rfl⟩ := ht
    have h0 : ¬ ((natToDec k).length = 0) := by
      intro hc
      exact natToDec_ne_nil k (List.length_eq_zero.mp hc)
    simp [sizeIsFileTailValid, h0, atoi_natToDec]
  have hfiltered : ((rollFiles orig d).map (getFileTail orig)).filter sizeIsFileTailValid
      ~ canonTails start cnt := by
    have h2 := htails.filter sizeIsFileTailValid
    rw [List.filter_eq_self.mpr hvalid] at h2
    exact h2
  have hsort := sort_canonical hfiltered (canonTails_pairwise start cnt)
    (canonTails_keys_nodup start cnt)
  simp only [getSortedLogHistory, sizeRoller]
  rw [hkept, hsort, ← canonNames_eq_tails]

theorem newName_notMem {orig : Str} {d : Dir} {start cnt : Nat}
    (hperm : rollFiles orig d ~ canonNames orig start cnt) {j : Nat}
    (hj : start + cnt ≤ j) :
    (orig ++ delim ++ natToDec j) ∉ dirNames d := by
  intro hmem
  have hroll : (orig ++ delim ++ natToDec j) ∈ rollFiles orig d :=
    List.mem_filter.mpr ⟨hmem, hasPre_reattach orig (natToDec j)⟩
  have hcanon := hperm.subset hroll
  rw [mem_canonNames] at hcanon
  obtain ⟨k, hk1, hk2, hk3⟩ := hcanon
  have hkj : j = k := canonName_inj hk3
  omega

theorem sizeNewTail_nil : sizeGetNewHistoryFileNameTail [] = natToDec 1 := rfl

theorem sizeNewTail_last (m : Nat) :
    sizeGetNewHistoryFileNameTail (natToDec m) = natToDec (m + 1) := by
  have hne : ¬ ((natToDec m).length = 0) := by
    intro hc
    exact natToDec_ne_nil m (List.length_eq_zero.mp hc)
  simp only [sizeGetNewHistoryFileNameTail, ne_eq, hne, not_false_eq_true, if_true,
    atoi_natToDec, Option.getD_some]
  exact intToDec_ofNat_succ m

theorem newTail_of_canon (orig : Str) (S C : Nat) (h1 : C = 0 → S = 1) :
    (match (canonNames orig S C).getLast? with
      | some lastName => sizeGetNewHistoryFileNameTail (getFileTail orig lastName)
      | none => sizeGetNewHistoryFileNameTail []) = natToDec (S + C) := by
  cases C with
  | zero =>
      have hS := h1 rfl
      subst hS
      rw [canonNames_zero]
      exact sizeNewTail_nil
  | succ k =>
      rw [canonNames_getLast]
      show sizeGetNewHistoryFileNameTail (getFileTail orig (orig ++ delim ++ natToDec (S + k)))
        = natToDec (S + (k + 1))
      rw [getFileTail_reattach, sizeNewTail_last]
      congr 1

theorem rotationRenameStep_ne {t : Str} (ht : t ≠ []) (fileName : Str)
    (history : List Str) (d : Dir) :
    rotationRenameStep fileName history t d =
      (dirRename d fileName (fileName ++ delim ++ t),
        history ++ [fileName ++ delim ++ t]) := by
  have hlen : t.length ≠ 0 := by
    cases t with
    | nil => exact absurd rfl ht
    | cons a b => simp
  have hneq : fileName ++ delim ++ t ≠ fileName := by
    intro h
    have hl := congrArg List.length h
    simp [delim] at hl
  simp only [rotationRenameStep, if_pos hlen, if_pos hneq]

theorem nodup_dirCreate {d : Dir} (n : Str) (h : (dirNames d).Nodup) :
    (dirNames (dirCreate d n)).Nodup := by
  rw [dirNames_dirCreate]
  apply List.Nodup.append (h.filter _) (List.nodup_singleton n)
  intro a ha han
  rw [List.mem_singleton] at han
  subst han
  have hpa := List.of_mem_filter ha
  simp at hpa

theorem nodup_dirRename {d : Dir} (old nw : Str) (h : (dirNames d).Nodup) :
    (dirNames (dirRename d old nw)).Nodup := by
  rw [dirNames_dirRename]
  apply List.Nodup.append ((h.filter _).filter _) (List.nodup_singleton nw)
  intro a ha han
  rw [List.mem_singleton] at han
  subst han
  have hpa := List.of_mem_filter ha
  simp at hpa

theorem nodup_foldl_dirRemove {d : Dir} (ns : List Str) (h : (dirNames d).Nodup) :
    (dirNames (ns.foldl dirRemove d)).Nodup := by
  rw [dirNames_foldl_dirRemove]
  exact h.filter _

theorem createFileAndFolderIfNeededD_spec (w : SizeWriter) (d : Dir) :
    (createFileAndFolderIfNeededD w d).1.fileName = w.originalFileName ∧
    (createFileAndFolderIfNeededD w d).1.originalFileName = w.originalFileName ∧
    (createFileAndFolderIfNeededD w d).1.maxRolls = w.maxRolls ∧
    (createFileAndFolderIfNeededD w d).1.fileOpen = true ∧
    w.originalFileName ∈ dirNames (createFileAndFolderIfNeededD w d).2 ∧
    rollFiles w.originalFileName (createFileAndFolderIfNeededD w d).2 =
      rollFiles w.originalFileName d ∧
    ((dirNames d).Nodup → (dirNames (createFileAndFolderIfNeededD w d).2).Nodup) := by
  cases hl : lookupSize d w.originalFileName with
  | some sz =>
      refine ⟨?_, ?_, ?_, ?_, ?_, ?_, ?_⟩ <;>
        simp only [createFileAndFolderIfNeededD, hl] <;>
        first
          | trivial
          | exact lookupSize_mem hl
          | exact fun h => h
  | none =>
      refine ⟨?_, ?_, ?_, ?_, ?_, ?_, ?_⟩ <;>
        simp only [createFileAndFolderIfNeededD, hl] <;>
        first
          | trivial
          | exact rollFiles_dirCreate _ _
          | exact fun h => nodup_dirCreate _ h
          | (rw [dirNames_dirCreate]
             exact List.mem_append_right _ (List.mem_singleton_self _))

theorem count_eq_one_of_nodup_mem {l : List Str} {a : Str} (hnd : l.Nodup) (ha : a ∈ l) :
    l.count a = 1 := by
  induction l with
  | nil => cases ha
  | cons x xs ih =>
      rcases List.mem_cons.mp ha with rfl | h
      · have hnotin : a ∉ xs := (List.nodup_cons.mp hnd).1
        simp [List.count_cons, List.count_eq_zero.mpr hnotin]
      · have hax : ¬ (a = x) := fun hc => (List.nodup_cons.mp hnd).1 (hc ▸ h)
        have hcount := ih (List.nodup_cons.mp hnd).2 h
        simp [List.count_cons, hcount, hax]

theorem rollDir_canon {orig : Str} {R : Int} (hR : 0 < R) {d₁ : Dir}
    (hnd : (dirNames d₁).Nodup)
    {start cnt : Nat} (hstart : 1 ≤ start) (hc0 : cnt = 0 → start = 1)
    (hperm : rollFiles orig d₁ ~ canonNames orig start cnt) :
    ∃ start' cnt' : Nat, 1 ≤ start' ∧ (cnt' = 0 → start' = 1) ∧ (cnt' : Int) ≤ R ∧
      rollFiles orig (rollDir orig orig R d₁) ~ canonNames orig start' cnt' ∧
      (dirNames (rollDir orig orig R d₁)).Nodup ∧
      ((cnt : Int) + 1 ≤ R → rollFiles orig (rollDir orig orig R d₁) ~
        canonNames orig start (cnt + 1)) := by
  have hscan : getSortedLogHistory sizeRoller orig orig (dirNames d₁) =
      canonNames orig start cnt := getSortedLogHistory_canon hperm
  have hnewtail : (match (canonNames orig start cnt).getLast? with
      | some lastName => sizeGetNewHistoryFileNameTail (getFileTail orig lastName)
      | none => sizeGetNewHistoryFileNameTail []) = natToDec (start + cnt) :=
    newTail_of_canon orig start cnt hc0
  have hnotmem : (orig ++ delim ++ natToDec (start + cnt)) ∉ dirNames d₁ :=
    newName_notMem hperm (le_refl _)
  have hconcat : canonNames orig start cnt ++ [orig ++ delim ++ natToDec (start + cnt)] =
      canonNames orig start (cnt + 1) := by
    rw [canonNames_append orig start cnt 1, canonNames_one]
  have hd3 : rollDir orig orig R d₁ =
      (if ((canonNames orig start (cnt + 1)).length : Int) > R
        then deleteOldRollsD R (canonNames orig start (cnt + 1))
          (dirRename d₁ orig (orig ++ delim ++ natToDec (start + cnt)))
        else dirRename d₁ orig (orig ++ delim ++ natToDec (start + cnt))) := by
    simp only [rollDir, hscan, hnewtail,
      rotationRenameStep_ne (natToDec_ne_nil (start + cnt)), hconcat]
  have hd2roll : rollFiles orig (dirRename d₁ orig (orig ++ delim ++ natToDec (start + cnt))) =
      rollFiles orig d₁ ++ [orig ++ delim ++ natToDec (start + cnt)] :=
    rollFiles_dirRename orig (natToDec (start + cnt)) d₁ hnotmem
  have hd2perm : rollFiles orig (dirRename d₁ orig (orig ++ delim ++ natToDec (start + cnt)))
      ~ canonNames orig start (cnt + 1) := by
    rw [hd2roll, ← hconcat]
    exact hperm.append_right _
  have hnd2 : (dirNames (dirRename d₁ orig (orig ++ delim ++ natToDec (start + cnt)))).Nodup :=
    nodup_dirRename _ _ hnd
  have hlen : ((canonNames orig start (cnt + 1)).length : Int) = (cnt : Int) + 1 := by
    rw [canonNames_length]
    push_cast
    ring
  by_cases hgt : ((canonNames orig start (cnt + 1)).length : Int) > R
  · -- prune: keep the most recent R = r tails
    rw [if_pos hgt] at hd3
    have hRn : ¬ (R ≤ 0) := not_le.mpr hR
    have hrd : ¬ (((canonNames orig start (cnt + 1)).length : Int) - R ≤ 0) := by omega
    simp only [deleteOldRollsD, if_neg hRn, if_neg hrd] at hd3
    set r := R.toNat with hrdef
    set a := cnt + 1 - r with hadef
    have hrpos : 1 ≤ r := by omega
    have hsplit : cnt + 1 = a + r := by omega
    have htoNat : ((((canonNames orig start (cnt + 1)).length : Int)) - R).toNat = a := by
      omega
    have htake : (canonNames orig start (cnt + 1)).take a = canonNames orig start a := by
      rw [hsplit]
      exact canonNames_take orig start a r
    rw [htoNat, htake] at hd3
    have hfilter : (canonNames orig start (cnt + 1)).filter
        (fun f => decide (f ∉ canonNames orig start a)) = canonNames orig (start + a) r := by
      rw [hsplit]
      exact canonNames_filter_out orig start a r
    have hperm4 : rollFiles orig (rollDir orig orig R d₁) ~ canonNames orig (start + a) r := by
      rw [hd3, rollFiles_foldl_dirRemove]
      have h5 := hd2perm.filter (fun f => decide (f ∉ canonNames orig start a))
      rw [hfilter] at h5
      exact h5
    refine ⟨start + a, r, by omega, fun h => by omega, by omega, hperm4, ?_, ?_⟩
    · rw [hd3]
      exact nodup_foldl_dirRemove _ hnd2
    · intro hle
      omega
  · rw [if_neg hgt] at hd3
    refine ⟨start, cnt + 1, hstart, fun h => by omega, by omega, ?_, ?_, fun _ => ?_⟩
    · rw [hd3]
      exact hd2perm
    · rw [hd3]
      exact hnd2
    · rw [hd3]
      exact hd2perm

theorem writeStepOpen_preserves {orig : Str} {R : Int} (hR : 0 < R)
    {w₁ : SizeWriter} {d₁ : Dir} (bytes : Bytes)
    (hfn : w₁.fileName = orig) (hofn : w₁.originalFileName = orig) (hmr : w₁.maxRolls = R)
    (hnd : (dirNames d₁).Nodup) (hmem : orig ∈ dirNames d₁)
    {start cnt : Nat} (hstart : 1 ≤ start) (hc0 : cnt = 0 → start = 1)
    (hcnt : (cnt : Int) ≤ R) (hperm : rollFiles orig d₁ ~ canonNames orig start cnt) :
    WInv orig R (writeStepOpen w₁ d₁ bytes).1 (writeStepOpen w₁ d₁ bytes).2 ∧
      orig ∈ dirNames (writeStepOpen w₁ d₁ bytes).2 := by
  by_cases hnr : w₁.maxFileSize ≤ w₁.currentSize
  · simp only [writeStepOpen, if_pos hnr]
    rw [hofn, hfn, hmr]
    obtain ⟨start', cnt', hs1, hc0', hcR', hperm', hnd', _⟩ :=
      rollDir_canon hR hnd hstart hc0 hperm
    obtain ⟨ha, hb, hc, hd4, he, hf, hg⟩ := createFileAndFolderIfNeededD_spec
      { w₁ with fileName := orig, originalFileName := orig, maxRolls := R, fileOpen := false }
      (rollDir orig orig R d₁)
    have ha' : (createFileAndFolderIfNeededD
        { w₁ with fileName := orig, originalFileName := orig, maxRolls := R, fileOpen := false }
        (rollDir orig orig R d₁)).1.fileName = orig := ha
    have hb' : (createFileAndFolderIfNeededD
        { w₁ with fileName := orig, originalFileName := orig, maxRolls := R, fileOpen := false }
        (rollDir orig orig R d₁)).1.originalFileName = orig := hb
    have hc' : (createFileAndFolderIfNeededD
        { w₁ with fileName := orig, originalFileName := orig, maxRolls := R, fileOpen := false }
        (rollDir orig orig R d₁)).1.maxRolls = R := hc
    have he' : orig ∈ dirNames (createFileAndFolderIfNeededD
        { w₁ with fileName := orig, originalFileName := orig, maxRolls := R, fileOpen := false }
        (rollDir orig orig R d₁)).2 := he
    have hf' : rollFiles orig (createFileAndFolderIfNeededD
        { w₁ with fileName := orig, originalFileName := orig, maxRolls := R, fileOpen := false }
        (rollDir orig orig R d₁)).2 = rollFiles orig (rollDir orig orig R d₁) := hf
    refine ⟨⟨?_, ?_, ?_, ?_, ?_, start', cnt', hs1, hc0', hcR', ?_⟩, ?_⟩
    · exact ha'
    · exact hb'
    · exact hc'
    · rw [dirNames_dirAppend]
      exact hg hnd'
    · intro _
      rw [dirNames_dirAppend]
      exact he'
    · rw [rollFiles_dirAppend, hf']
      exact hperm'
    · rw [dirNames_dirAppend]
      exact he'
  · simp only [writeStepOpen, if_neg hnr]
    refine ⟨⟨hfn, hofn, hmr, ?_, ?_, start, cnt, hstart, hc0, hcnt, ?_⟩, ?_⟩
    · rw [dirNames_dirAppend]
      exact hnd
    · intro _
      rw [dirNames_dirAppend]
      exact hmem
    · rw [rollFiles_dirAppend]
      exact hperm
    · rw [dirNames_dirAppend]
      exact hmem

theorem writeStep_preserves {orig : Str} {R : Int} (hR : 0 < R)
    {w : SizeWriter} {d : Dir} (hw : WInv orig R w d) (bytes : Bytes) :
    WInv orig R (writeStep w d bytes).1 (writeStep w d bytes).2 ∧
      orig ∈ dirNames (writeStep w d bytes).2 := by
  obtain ⟨hfn, hofn, hmr, hnd, homem, start, cnt, hstart, hc0, hcnt, hperm⟩ := hw
  by_cases hfo : w.fileOpen = true
  · simp only [writeStep, if_pos hfo]
    exact writeStepOpen_preserves hR bytes hfn hofn hmr hnd (homem hfo) hstart hc0 hcnt hperm
  · simp only [writeStep, if_neg hfo]
    obtain ⟨ha, hb, hc, hd4, he, hf, hg⟩ := createFileAndFolderIfNeededD_spec w d
    rw [hofn] at ha hb he hf
    have ha' : (createFileAndFolderIfNeededD w d).1.fileName = orig := ha
    have hb' : (createFileAndFolderIfNeededD w d).1.originalFileName = orig := hb
    have hc' : (createFileAndFolderIfNeededD w d).1.maxRolls = R := hc.trans hmr
    have hfperm : rollFiles orig (createFileAndFolderIfNeededD w d).2 ~
        canonNames orig start cnt := by
      rw [hf]
      exact hperm
    exact writeStepOpen_preserves hR bytes ha' hb' hc' (hg hnd) he hstart hc0 hcnt hfperm

theorem runWrites_invariant {orig : Str} {R : Int} (hR : 0 < R) :
    ∀ (writes : List Bytes) (w : SizeWriter) (d : Dir), WInv orig R w d →
      WInv orig R (runWrites w d writes).1 (runWrites w d writes).2 ∧
        (writes ≠ [] → orig ∈ dirNames (runWrites w d writes).2) := by
  intro writes
  induction writes with
  | nil =>
      intro w d hw
      exact ⟨hw, fun h => absurd rfl h⟩
  | cons b bs ih =>
      intro w d hw
      have hstep := writeStep_preserves hR hw b
      have hrec := ih (writeStep w d b).1 (writeStep w d b).2 hstep.1
      have hrw : runWrites w d (b :: bs) =
          runWrites (writeStep w d b).1 (writeStep w d b).2 bs := rfl
      rw [hrw]
      refine ⟨hrec.1, fun _ => ?_⟩
      cases bs with
      | nil => exact hstep.2
      | cons c cs => exact hrec.2 (by simp)

theorem runRemovals_ok (rm : Str → RmOutcome) :
    ∀ l : List Str, (∀ p ∈ l, tryRemoveFile rm p = none) → runRemovals rm l = (none, l) := by
  intro l
  induction l with
  | nil => intro _; rfl
  | cons p rest ih =>
      intro h
      have hp := h p (List.mem_cons_self _ _)
      have hr := ih (fun q hq => h q (List.mem_cons_of_mem _ hq))
      simp [runRemovals, hp, hr]

theorem testBit_false_of_land_modeType {m : Nat} (h : m &&& modeType = 0) (k : Nat)
    (hk : modeType.testBit k = true) : m.testBit k = false := by
  have hb : (m &&& modeType).testBit k = false := by rw [h]; simp
  rw [Nat.testBit_land, hk] at hb
  simpa using hb

-- ---------------------------------------------------------------------------
-- Claims.
-- ---------------------------------------------------------------------------

/-- C1: for a size-policy writer with positive `max_file_size` and positive
`max_rolls = R`, started on a directory containing no names extending
`original_name ++ "."`, after any non-empty sequence of successful writes the
directory holds exactly one live file named `original_name`, and the history
files are at most `R`, their tails distinct positive integers forming a block
of consecutive integers `start, start+1, …` — a contiguous ascending suffix of
`1, 2, 3, …`. -/
theorem size_policy_invariant (orig : Str) (M R : Int) (_hM : 0 < M) (hR : 0 < R)
    (d0 : Dir) (hnd : (dirNames d0).Nodup)
    (hclean : ∀ f ∈ dirNames d0, hasPre (orig ++ delim) f = false)
    (writes : List Bytes) (hne : writes ≠ []) :
    (dirNames (runWrites (initWriter orig M R) d0 writes).2).count orig = 1 ∧
    ∃ start cnt : Nat, 1 ≤ start ∧ (cnt : Int) ≤ R ∧
      rollFiles orig (runWrites (initWriter orig M R) d0 writes).2 ~
        canonNames orig start cnt := by
  have hinv0 : WInv orig R (initWriter orig M R) d0 := by
    refine ⟨rfl, rfl, rfl, hnd, ?_, 1, 0, le_refl 1, fun _ => rfl, by omega, ?_⟩
    · intro h
      simp [initWriter] at h
    · have hempty : rollFiles orig d0 = [] := by
        apply List.filter_eq_nil_iff.mpr
        intro f hf
        simp [hclean f hf]
      rw [hempty, canonNames_zero]
  have hmain := runWrites_invariant hR writes (initWriter orig M R) d0 hinv0
  obtain ⟨⟨_, _, _, hndf, _, start, cnt, hstart, _, hcnt, hperm⟩, hmem⟩ := hmain
  refine ⟨?_, start, cnt, hstart, hcnt, hperm⟩
  exact count_eq_one_of_nodup_mem hndf (hmem hne)

/-- Witness for C1: writes of 11 and 1 bytes with `M = 10`, `R = 3` on an
empty directory (end-to-end scenario 1 of the spec). -/
theorem size_policy_invariant_witness :
    (dirNames (runWrites (initWriter ("a.log".data) 10 3) []
        [[0, 1, 2, 3, 4, 5, 6, 7, 8, 9, 10], [0]]).2).count ("a.log".data) = 1 ∧
    ∃ start cnt : Nat, 1 ≤ start ∧ (cnt : Int) ≤ 3 ∧
      rollFiles ("a.log".data) (runWrites (initWriter ("a.log".data) 10 3) []
        [[0, 1, 2, 3, 4, 5, 6, 7, 8, 9, 10], [0]]).2 ~
        canonNames ("a.log".data) start cnt :=
  size_policy_invariant ("a.log".data) 10 3 (by decide) (by decide) [] (by decide)
    (by decide) [[0, 1, 2, 3, 4, 5, 6, 7, 8, 9, 10], [0]] (by decide)

/-- C7: given the scanned bare filenames, the sorted-history construction
returns exactly the names other than the current file that extend
`original_name ++ "."` with a policy-valid tail, with tails ordered by the
policy sort and the prefix reattached; the current file never appears. -/
theorem getSortedLogHistory_spec (r : Roller) (orig fileName : Str) (files : List Str)
    (hperm : ∀ l, r.sortFileTailsAsc l ~ l) :
    (∀ f, f ∈ getSortedLogHistory r orig fileName files ↔
      (f ∈ files ∧ f ≠ fileName ∧ (orig ++ delim) <+: f ∧
        r.isFileTailValid (getFileTail orig f) = true)) ∧
    fileName ∉ getSortedLogHistory r orig fileName files ∧
    (getSortedLogHistory r orig fileName files).map (getFileTail orig) =
      r.sortFileTailsAsc
        (((files.filter (fun file => !(file == fileName) && hasPre (orig ++ delim) file)).map
            (getFileTail orig)).filter r.isFileTailValid) := by
  have hfilter : ∀ g : Str, ((!(g == fileName) && hasPre (orig ++ delim) g) = true) ↔
      (g ≠ fileName ∧ (orig ++ delim) <+: g) := by
    intro g
    simp [hasPre]
  have hmem : ∀ f, f ∈ getSortedLogHistory r orig fileName files ↔
      (f ∈ files ∧ f ≠ fileName ∧ (orig ++ delim) <+: f ∧
        r.isFileTailValid (getFileTail orig f) = true) := by
    intro g
    simp only [getSortedLogHistory]
    constructor
    · intro hg
      rw [List.mem_map] at hg
      obtain ⟨t, ht, rfl⟩ := hg
      have ht2 := (hperm _).mem_iff.mp ht
      rw [List.mem_filter] at ht2
      obtain ⟨htails, hvalidb⟩ := ht2
      rw [List.mem_map] at htails
      obtain ⟨f, hf, rfl⟩ := htails
      rw [List.mem_filter] at hf
      obtain ⟨hffiles, hfp⟩ := hf
      obtain ⟨hne, hpre⟩ := (hfilter f).mp hfp
      rw [reattach_getFileTail hpre]
      exact ⟨hffiles, hne, hpre, hvalidb⟩
    · rintro ⟨hfiles, hne, hpre, hvalid⟩
      rw [List.mem_map]
      refine ⟨getFileTail orig g, ?_, reattach_getFileTail hpre⟩
      rw [(hperm _).mem_iff, List.mem_filter]
      refine ⟨?_, hvalid⟩
      rw [List.mem_map]
      exact ⟨g, List.mem_filter.mpr ⟨hfiles, (hfilter g).mpr ⟨hne, hpre⟩⟩, rfl⟩
  refine ⟨hmem, ?_, ?_⟩
  · intro hin
    exact ((hmem fileName).mp hin).2.1 rfl
  · simp only [getSortedLogHistory]
    rw [List.map_map]
    have hid : (getFileTail orig ∘ fun v => orig ++ delim ++ v) = id := by
      funext t
      show getFileTail orig (orig ++ delim ++ t) = t
      exact getFileTail_reattach orig t
    rw [hid, List.map_id]

/-- Witness for C7: the size roller on a concrete directory listing. -/
theorem getSortedLogHistory_spec_witness :
    ("a.log.2".data) ∈ getSortedLogHistory sizeRoller ("a.log".data) ("a.log".data)
      ["notes".data, "a.log.2".data, "a.log".data, "a.log.x".data] :=
  ((getSortedLogHistory_spec sizeRoller ("a.log".data) ("a.log".data)
      ["notes".data, "a.log.2".data, "a.log".data, "a.log.x".data]
      (fun l => List.perm_insertionSort tailLE l)).1 ("a.log.2".data)).mpr (by decide)

/-- C2: during rotation with post-rename history of length `L`, when
`max_rolls > 0` and `L > max_rolls` the writer attempts to delete exactly the
first `L - max_rolls` (oldest) entries of the sorted history; a
"file does not exist" failure counts as success; any other deletion failure
makes `Write` return that error; and `max_rolls <= 0` never deletes anything. -/
theorem deleteOldRolls_spec (rm : Str → RmOutcome) (maxRolls : Int) (history : List Str) :
    (maxRolls ≤ 0 → deleteOldRollsE rm maxRolls history = (none, [])) ∧
    (0 < maxRolls → maxRolls < (history.length : Int) →
      (∀ p ∈ history.take ((history.length : Int) - maxRolls).toNat,
        tryRemoveFile rm p = none) →
      deleteOldRollsE rm maxRolls history =
        (none, history.take ((history.length : Int) - maxRolls).toNat)) ∧
    (∀ e, (deleteOldRollsE rm maxRolls history).1 = some e →
      writePruneStep rm maxRolls history = .error e) ∧
    (∀ pre : List Str, ∀ rest : List Str, ∀ p e : Str,
      (∀ q ∈ pre, tryRemoveFile rm q = none) → tryRemoveFile rm p = some e →
      runRemovals rm (pre ++ p :: rest) = (some e, pre ++ [p])) := by
  refine ⟨?_, ?_, ?_, ?_⟩
  · intro h
    simp [deleteOldRollsE, h]
  · intro h1 h2 h3
    have hne : ¬ (maxRolls ≤ 0) := by omega
    have hpos : ¬ ((history.length : Int) - maxRolls ≤ 0) := by omega
    simp only [deleteOldRollsE, if_neg hne, if_neg hpos]
    exact runRemovals_ok rm _ h3
  · intro e he
    have hlen : maxRolls < (history.length : Int) := by
      by_contra hc
      rcases le_or_lt maxRolls 0 with h0 | h0
      · simp [deleteOldRollsE, h0] at he
      · have hne : ¬ (maxRolls ≤ 0) := by omega
        have hle : (history.length : Int) - maxRolls ≤ 0 := by omega
        simp [deleteOldRollsE, if_neg hne, hle] at he
    have hgt : (history.length : Int) > maxRolls := hlen
    simp [writePruneStep, hgt, he]
  · intro pre
    induction pre with
    | nil =>
        intro rest p e _ hp
        simp [runRemovals, hp]
    | cons q qs ih =>
        intro rest p e hpre hp
        have hq : tryRemoveFile rm q = none := hpre q (List.mem_cons_self _ _)
        have ihh := ih rest p e (fun x hx => hpre x (List.mem_cons_of_mem _ hx)) hp
        simp [runRemovals, hq, ihh]

/-- Witness for C2: three history entries, `max_rolls = 1`, every removal
reporting "file does not exist": the two oldest entries are pruned, no error. -/
theorem deleteOldRolls_spec_witness :
    deleteOldRollsE (fun _ => RmOutcome.notExist) 1
        ["a.log.1".data, "a.log.2".data, "a.log.3".data] =
      (none, ["a.log.1".data, "a.log.2".data]) :=
  ((deleteOldRolls_spec (fun _ => RmOutcome.notExist) 1
      ["a.log.1".data, "a.log.2".data, "a.log.3".data]).2.1
    (by decide) (by decide) (by decide)).trans (by decide)

/-- C3 (code bug): with the target file present (first `Lstat` succeeds), the
open-for-append failing, and the second `Lstat` succeeding,
`createFileAndFolderIfNeeded` returns success — with no handle set — instead of
propagating the open error: line 212 overwrites the error of line 210. -/
theorem ensureOpen_masks_open_error :
    createFileAndFolderIfNeededE true
        { mkdirAll := none, lstat1 := .ok 5,
          openAppend := .error ("permission denied".data),
          lstat2 := .ok 5, create := .ok () } =
      .ok { fileSet := false, size := 5 } := by
  rfl

/-- C4 counterexample: for an underlying write that appends 0 bytes and fails,
`CurrentFileSize` still grows by `len(bytes)` (= 3 here), not by the 0 bytes
actually appended, refuting "current_size is increased by the number of bytes
actually appended by the underlying file write". -/
theorem write_size_accounting_cx :
    (writeAppend (fun _ => (0, some ("disk full".data))) 0 [1, 2, 3]).1 ≠
      0 + (((writeAppend (fun _ => (0, some ("disk full".data))) 0 [1, 2, 3]).2.1 : Nat) : Int) := by
  decide

/-- C4 (amended): `current_size` grows by `len(bytes)` — the requested length —
regardless of the underlying write's outcome, and the returned count and error
are exactly those of the underlying file write; in particular, for a write that
does not cause rotation, `current_size` after equals `current_size` before plus
`len(W)`. -/
theorem write_size_accounting (fileWrite : Bytes → Nat × Option Str) (currentSize : Int)
    (bytes : Bytes) (w : SizeWriter) (d : Dir) :
    (writeAppend fileWrite currentSize bytes =
      (currentSize + (bytes.length : Int), fileWrite bytes)) ∧
    (w.fileOpen = true → w.currentSize < w.maxFileSize →
      (writeStep w d bytes).1.currentSize = w.currentSize + (bytes.length : Int)) := by
  constructor
  · rfl
  · intro hopen hlt
    have hnr : ¬ (w.maxFileSize ≤ w.currentSize) := not_le.mpr hlt
    simp [writeStep, writeStepOpen, hopen, hnr]

/-- Witness for C4's amended statement at a concrete open, non-rolling writer. -/
theorem write_size_accounting_witness :
    (writeStep ⟨"a.log".data, "a.log".data, 2, 10, 3, true⟩ [("a.log".data, 3)]
      [1, 2]).1.currentSize = 5 := by
  have h := (write_size_accounting (fun b => (b.length, none)) 0 [1, 2]
    ⟨"a.log".data, "a.log".data, 2, 10, 3, true⟩ [("a.log".data, 3)]).2 rfl (by decide)
  rw [h]
  decide

/-- C5: in the rotation step, a non-empty `next_history_tail` renames the
current file on disk to `current_name ++ "." ++ tail` and appends that name to
the history list; an empty tail — which the time policy's
`getNewHistoryFileNameTail` always produces — causes no rename, and
`current_name` itself is appended to the history so pruning counts it. -/
theorem rotation_rename_spec (fileName : Str) (history : List Str) (newTail : Str) (d : Dir) :
    (newTail ≠ [] →
      rotationRenameStep fileName history newTail d =
        (dirRename d fileName (fileName ++ delim ++ newTail),
         history ++ [fileName ++ delim ++ newTail])) ∧
    (newTail = [] →
      rotationRenameStep fileName history newTail d = (d, history ++ [fileName])) ∧
    (∀ lastTail : Str, timeGetNewHistoryFileNameTail lastTail = []) := by
  refine ⟨?_, ?_, fun _ => rfl⟩
  · intro hne
    have hlen : newTail.length ≠ 0 := by
      cases newTail with
      | nil => exact absurd rfl hne
      | cons a b => simp
    have hneq : fileName ++ delim ++ newTail ≠ fileName := by
      intro h
      have hl := congrArg List.length h
      simp [delim] at hl
    simp only [rotationRenameStep, if_pos hlen, if_pos hneq]
  · intro h
    subst h
    simp [rotationRenameStep]

/-- Witness for C5: both branches at concrete inputs. -/
theorem rotation_rename_spec_witness :
    rotationRenameStep ("a.log".data) [] ("1".data) [("a.log".data, 10)] =
      (dirRename [("a.log".data, 10)] ("a.log".data) ("a.log".data ++ delim ++ "1".data),
        [] ++ ["a.log".data ++ delim ++ "1".data]) ∧
    rotationRenameStep ("a.log.01Jan06".data) [] [] [("a.log.01Jan06".data, 10)] =
      ([("a.log.01Jan06".data, 10)], [] ++ ["a.log.01Jan06".data]) :=
  ⟨(rotation_rename_spec ("a.log".data) [] ("1".data) [("a.log".data, 10)]).1 (by decide),
   (rotation_rename_spec ("a.log.01Jan06".data) [] [] [("a.log.01Jan06".data, 10)]).2.1 rfl⟩

/-- C6: the time policy's `needsToRoll` returns false when the freshly
formatted name equals `current_name`; otherwise true for interval `Any`;
otherwise it parses the tail of `current_name` (propagating a parse failure as
an error) and, for `Daily`, reports exactly whether `now - t_prev ≥ 24h`; any
interval other than `Any`/`Daily` yields an error. -/
theorem time_needsToRoll_spec (fmtNow : Str) (parseTail : Str → Except Str Int)
    (nowNs : Int) (orig fileName : Str) (interval : Nat) :
    (orig ++ delim ++ fmtNow = fileName →
      timeNeedsToRoll fmtNow parseTail nowNs orig fileName interval = .ok false) ∧
    (orig ++ delim ++ fmtNow ≠ fileName → interval = RollingIntervalAny →
      timeNeedsToRoll fmtNow parseTail nowNs orig fileName interval = .ok true) ∧
    (∀ e, orig ++ delim ++ fmtNow ≠ fileName → interval ≠ RollingIntervalAny →
      parseTail (getFileTail orig fileName) = .error e →
      timeNeedsToRoll fmtNow parseTail nowNs orig fileName interval = .error e) ∧
    (∀ tprev, orig ++ delim ++ fmtNow ≠ fileName → interval = RollingIntervalDaily →
      parseTail (getFileTail orig fileName) = .ok tprev →
      timeNeedsToRoll fmtNow parseTail nowNs orig fileName interval =
        .ok (decide (hours24 ≤ nowNs - tprev))) ∧
    (orig ++ delim ++ fmtNow ≠ fileName → interval ≠ RollingIntervalAny →
      interval ≠ RollingIntervalDaily →
      ∃ e, timeNeedsToRoll fmtNow parseTail nowNs orig fileName interval = .error e) := by
  refine ⟨?_, ?_, ?_, ?_, ?_⟩
  · intro h
    simp only [timeNeedsToRoll, if_pos h]
  · intro h hA
    simp only [timeNeedsToRoll, if_neg h, if_pos hA]
  · intro e h hA hp
    simp only [timeNeedsToRoll, if_neg h, if_neg hA, hp]
  · intro tprev h hD hp
    subst hD
    simp only [timeNeedsToRoll, if_neg h, hp]
    simp [RollingIntervalDaily, RollingIntervalAny]
  · intro h hA hD
    cases hp : parseTail (getFileTail orig fileName) with
    | error e => exact ⟨e, by simp only [timeNeedsToRoll, if_neg h, if_neg hA, hp]⟩
    | ok tprev =>
        refine ⟨("unknown Interval type".data), ?_⟩
        simp only [timeNeedsToRoll, if_neg h, if_neg hA, hp, if_neg hD]

/-- Witness for C6: a stale current name with interval `Any` rolls. -/
theorem time_needsToRoll_spec_witness :
    timeNeedsToRoll ("02Jan06".data) (fun _ => Except.error ("parse error".data)) 0
      ("a.log".data) ("a.log.01Jan06".data) RollingIntervalAny = .ok true :=
  (time_needsToRoll_spec ("02Jan06".data) (fun _ => Except.error ("parse error".data)) 0
    ("a.log".data) ("a.log.01Jan06".data) RollingIntervalAny).2.1 (by decide) rfl

/-- C8: `Close` with no open handle is a success no-op that calls nothing; with
an open handle and a successful underlying close it succeeds and releases the
handle; after any successful close no handle remains open, so a second close
succeeds without calling the underlying close. -/
theorem close_idempotent (closeResult closeResult' : Option Str) (fileOpen : Bool) :
    (fileOpen = false → closeWriter closeResult fileOpen = (none, false, false)) ∧
    (fileOpen = true → closeResult = none →
      closeWriter closeResult fileOpen = (none, false, true)) ∧
    ((closeWriter closeResult fileOpen).1 = none →
      (closeWriter closeResult fileOpen).2.1 = false) ∧
    ((closeWriter closeResult fileOpen).1 = none →
      closeWriter closeResult' (closeWriter closeResult fileOpen).2.1 =
        (none, false, false)) := by
  refine ⟨?_, ?_, ?_, ?_⟩
  · intro h
    subst h
    rfl
  · intro h h2
    subst h
    subst h2
    rfl
  · intro h
    cases fileOpen
    · rfl
    · cases closeResult with
      | none => rfl
      | some e => simp [closeWriter] at h
  · intro h
    cases fileOpen
    · rfl
    · cases closeResult with
      | none => rfl
      | some e => simp [closeWriter] at h

/-- Witness for C8: close of an open handle, then a second close. -/
theorem close_idempotent_witness :
    closeWriter none true = (none, false, true) ∧
    closeWriter (some ("late error".data)) false = (none, false, false) :=
  ⟨(close_idempotent none none true).2.1 rfl rfl,
   (close_idempotent none (some ("late error".data)) false).2.2.2 rfl⟩

/-- C9: every string emitted by the directory scanner comes from an entry whose
mode has none of the non-regular type bits set — no directory (bit 31), symlink
(27), device (26, char-device 21), pipe (25), socket (24) or irregular (19)
entry is ever emitted, for every directory content and filter. -/
theorem getDirFilePaths_regular (entries : List FileInfo) (fpFilter : Option (Str → Bool))
    (pathIsName : Bool) (absDirPath : Str) :
    ∀ p ∈ getDirFilePaths entries fpFilter pathIsName absDirPath,
      ∃ fi ∈ entries, fi.mode &&& modeType = 0 ∧
        fi.mode.testBit 31 = false ∧ fi.mode.testBit 27 = false ∧
        fi.mode.testBit 26 = false ∧ fi.mode.testBit 25 = false ∧
        fi.mode.testBit 24 = false ∧ fi.mode.testBit 21 = false ∧
        fi.mode.testBit 19 = false ∧
        p = (if pathIsName then fi.name else joinPath absDirPath fi.name) := by
  intro p hp
  simp only [getDirFilePaths, List.mem_filterMap, List.mem_filter] at hp
  obtain ⟨fi, ⟨hmem, hreg⟩, hout⟩ := hp
  have hland : fi.mode &&& modeType = 0 := by
    simpa [isRegular] using hreg
  refine ⟨fi, hmem, hland, ?_, ?_, ?_, ?_, ?_, ?_, ?_, ?_⟩
  · exact testBit_false_of_land_modeType hland 31 (by decide)
  · exact testBit_false_of_land_modeType hland 27 (by decide)
  · exact testBit_false_of_land_modeType hland 26 (by decide)
  · exact testBit_false_of_land_modeType hland 25 (by decide)
  · exact testBit_false_of_land_modeType hland 24 (by decide)
  · exact testBit_false_of_land_modeType hland 21 (by decide)
  · exact testBit_false_of_land_modeType hland 19 (by decide)
  · cases hflt : fpFilter with
    | none =>
        rw [hflt] at hout
        simp at hout
        exact hout.symm
    | some flt =>
        rw [hflt] at hout
        by_cases hf : flt (if pathIsName then fi.name else joinPath absDirPath fi.name)
        · simp [hf] at hout
          exact hout.symm
        · simp [hf] at hout

/-- Witness for C9: a mixed directory of one regular file and one directory. -/
theorem getDirFilePaths_regular_witness :
    ∃ fi ∈ [(⟨"a.log".data, 0⟩ : FileInfo), ⟨"sub".data, modeDir⟩],
      fi.mode &&& modeType = 0 ∧
        fi.mode.testBit 31 = false ∧ fi.mode.testBit 27 = false ∧
        fi.mode.testBit 26 = false ∧ fi.mode.testBit 25 = false ∧
        fi.mode.testBit 24 = false ∧ fi.mode.testBit 21 = false ∧
        fi.mode.testBit 19 = false ∧
        "a.log".data = (if true then fi.name else joinPath [] fi.name) :=
  getDirFilePaths_regular [⟨"a.log".data, 0⟩, ⟨"sub".data, modeDir⟩] none true []
    ("a.log".data) (by decide)

/-- C10: the size policy's tail validity accepts every non-empty string that
signed decimal parsing accepts — including negative and plus-signed tails such
as "-1" and "+2" — such tails are admitted into the sorted history,
`sortFileTailsAsc` orders tails by signed numeric value (a negative tail sorts
before every positive one), and pruning deletes the negative-tailed file first. -/
theorem size_tail_signed_spec :
    (∀ s : Str, s ≠ [] → (atoi s).isSome → sizeIsFileTailValid s = true) ∧
    sizeIsFileTailValid ("-1".data) = true ∧
    sizeIsFileTailValid ("+2".data) = true ∧
    (∀ l : List Str, (sizeSortFileTailsAsc l).Pairwise tailLE) ∧
    sizeSortFileTailsAsc ["2".data, "-1".data, "1".data] =
      ["-1".data, "1".data, "2".data] ∧
    getSortedLogHistory sizeRoller ("a.log".data) ("a.log".data)
        ["a.log".data, "a.log.2".data, "a.log.-1".data, "a.log.1".data] =
      ["a.log.-1".data, "a.log.1".data, "a.log.2".data] ∧
    deleteOldRollsE (fun _ => RmOutcome.ok) 2
        ["a.log.-1".data, "a.log.1".data, "a.log.2".data] =
      (none, ["a.log.-1".data]) := by
  refine ⟨?_, by decide, by decide, ?_, by decide, by decide, by decide⟩
  · intro s hne hsome
    have hlen : ¬ (s.length = 0) := by
      cases s with
      | nil => exact absurd rfl hne
      | cons a b => simp
    simp [sizeIsFileTailValid, hlen, hsome]
  · intro l
    exact List.sorted_insertionSort tailLE l

/-- Witness for C10: a negative decimal tail is accepted as valid. -/
theorem size_tail_signed_spec_witness : sizeIsFileTailValid ("-7".data) = true :=
  size_tail_signed_spec.1 ("-7".data) (by decide) (by decide)

end RollingWriter
